import Mathlib

/-!
Verification development for the character-network pipeline in
`src/characters/character_relations.py`.

The core stages are embedded shallowly:

* sentences enter the matrix builder as their externally produced data
  (binary presence vector over the name vocabulary plus a sentiment
  score), mirroring the `CountVectorizer`/`Afinn` collaborators;
* numpy floating-point values are modelled as exact rationals (or reals
  after the transcendental `np.log`) extended with `nan` and the two
  infinities, because the pipeline performs divisions whose denominator
  can be zero and numpy then yields non-finite values with a warning
  instead of raising;
* `pandas.sort_values(ascending=False)` is modelled as the reverse of a
  stable ascending sort, which is what pandas' `nargsort` does (it
  computes an ascending argsort and reverses it; numpy's sort is the
  stable insertion sort on the small arrays relevant here).
-/

/-- Model of a numpy floating-point scalar that is either an exact
finite value of type `α` or one of the non-finite values `nan`,
`+inf`, `-inf`. -/
inductive NpVal (α : Type) where
  | fin (x : α)
  | nan
  | pinf
  | ninf
deriving DecidableEq

/-- numpy true division `x / y` on finite operands: for `y = 0` numpy
emits a warning and returns `nan` (when `x = 0`) or a signed infinity,
it does not raise. -/
def npDivQ (x y : ℚ) : NpVal ℚ :=
  if y = 0 then
    (if x = 0 then NpVal.nan else if 0 < x then NpVal.pinf else NpVal.ninf)
  else NpVal.fin (x / y)

/-- Multiplication of a numpy value by a finite rational constant
(`c * v`); `0 * ±inf = nan` as in numpy. -/
def npSMul (c : ℚ) : NpVal ℚ → NpVal ℚ
  | NpVal.fin x => NpVal.fin (c * x)
  | NpVal.nan => NpVal.nan
  | NpVal.pinf => if 0 < c then NpVal.pinf else if c < 0 then NpVal.ninf else NpVal.nan
  | NpVal.ninf => if 0 < c then NpVal.ninf else if c < 0 then NpVal.pinf else NpVal.nan

/-- Adding the constant 1 to a numpy value (`v + 1`). -/
def npAdd1 : NpVal ℚ → NpVal ℚ
  | NpVal.fin x => NpVal.fin (x + 1)
  | NpVal.nan => NpVal.nan
  | NpVal.pinf => NpVal.pinf
  | NpVal.ninf => NpVal.ninf

/-- numpy `np.abs` on a numpy value. -/
def npAbsQ : NpVal ℚ → NpVal ℚ
  | NpVal.fin x => NpVal.fin |x|
  | NpVal.nan => NpVal.nan
  | NpVal.pinf => NpVal.pinf
  | NpVal.ninf => NpVal.pinf

/-- numpy `np.log` on a numpy value: `log` of a negative number is
`nan` (with a warning), `log 0 = -inf`, `log (+inf) = +inf`. -/
noncomputable def npLog : NpVal ℚ → NpVal ℝ
  | NpVal.fin x =>
      if 0 < x then NpVal.fin (Real.log x)
      else if x = 0 then NpVal.ninf else NpVal.nan
  | NpVal.nan => NpVal.nan
  | NpVal.pinf => NpVal.pinf
  | NpVal.ninf => NpVal.nan

/-- Multiplication of a real numpy value by the positive literal `0.7`
(`v * 0.7`), the weight scaling used by the edge projector. -/
def npMul07 : NpVal ℝ → NpVal ℝ
  | NpVal.fin x => NpVal.fin (x * 0.7)
  | NpVal.nan => NpVal.nan
  | NpVal.pinf => NpVal.pinf
  | NpVal.ninf => NpVal.ninf

/-- Cast of a rational numpy value into a real numpy value. -/
def toRealNp : NpVal ℚ → NpVal ℝ
  | NpVal.fin x => NpVal.fin (x : ℝ)
  | NpVal.nan => NpVal.nan
  | NpVal.pinf => NpVal.pinf
  | NpVal.ninf => NpVal.ninf

/-- numpy comparison `v > c` for a real threshold: any comparison with
`nan` is `False`. -/
def NpVal.gtR : NpVal ℝ → ℝ → Prop
  | NpVal.fin x, c => c < x
  | NpVal.nan, _ => False
  | NpVal.pinf, _ => True
  | NpVal.ninf, _ => False

/-- `calculate_align_rate` of `character_relations.py`, with the
sentence list replaced by the sentiment scores the external `Afinn`
scorer assigns to it: `np.sum(scores) / len(np.nonzero(scores)[0]) * -2`.
The division is numpy division, so a zero count of nonzero scores
yields a non-finite value instead of an exception. -/
def calculate_align_rate (scores : List ℚ) : NpVal ℚ :=
  npSMul (-2) (npDivQ scores.sum ((scores.filter fun x => decide (x ≠ 0)).length))

/-- Deduplication keeping the first occurrence of each element, the
iteration order of a Python `Counter` (insertion order). -/
def dedupKeepFirst : List String → List String
  | [] => []
  | x :: xs => x :: dedupKeepFirst (xs.filter fun y => decide (y ≠ x))
termination_by l => l.length
decreasing_by
  simp only [List.length_cons]
  exact Nat.lt_succ_of_le (List.length_filter_le _ _)

/-- `iterative_NER` of `character_relations.py`, with the call to the
external `name_entity_recognition` collaborator replaced by its
results: `name_lists` holds the candidate-name list extracted from
each sentence (one entry per sentence, so `name_lists.length` is the
sentence count).  Lists that are empty are skipped (`if name_list !=
[]`), the rest are flattened, counted, and a name is kept when its
count is at least `threshold_rate * len(sentence_list)`. -/
def iterative_NER (name_lists : List (List String)) (threshold_rate : ℚ) : List String :=
  let output := (name_lists.filter fun l => decide (l ≠ [])).flatten
  (dedupKeepFirst output).filter fun x =>
    decide (threshold_rate * (name_lists.length : ℚ) ≤ (output.count x : ℚ))

/-- Stable ascending insertion of a `(name, frequency)` pair: the new
pair goes after every already-placed pair of smaller-or-equal
frequency, so equal frequencies keep their original relative order. -/
def insertAsc (x : String × ℕ) : List (String × ℕ) → List (String × ℕ)
  | [] => [x]
  | y :: ys => if x.2 < y.2 then x :: y :: ys else y :: insertAsc x ys

/-- Stable ascending sort by frequency (insertion sort, processing the
input left to right). -/
def sortAsc (l : List (String × ℕ)) : List (String × ℕ) :=
  l.foldl (fun acc x => insertAsc x acc) []

/-- `top_names` of `character_relations.py`, with the
`CountVectorizer` corpus counting replaced by its result: `name_freq`
pairs each candidate name (in first-seen order) with its corpus
frequency.  `sort_values(by=0, ascending=False)` in pandas computes an
ascending argsort and reverses it (`nargsort` applies `[::-1]`), so it
is modelled as the reverse of a stable ascending sort; then the first
`top_num` rows are taken and the function returns the frequency list
and the name list, in that order. -/
def top_names (name_freq : List (String × ℕ)) (top_num : ℕ) : List ℕ × List String :=
  let sorted := (sortAsc name_freq).reverse.take top_num
  (sorted.map Prod.snd, sorted.map Prod.fst)

/-- The data of one sentence as it enters the matrix builder: the row
of `occurrence_each_sentence` the binary `CountVectorizer` produces
for it (presence of each vocabulary name) and the sentiment score the
external `Afinn` scorer assigns to it. -/
structure SentenceData (K : ℕ) where
  presence : Fin K → Bool
  score : ℚ

/-- The 0/1 rational entry of a sentence's presence vector. -/
def presQ {K : ℕ} (s : SentenceData K) (i : Fin K) : ℚ :=
  if s.presence i then 1 else 0

/-- `np.dot(occurrence_each_sentence.T, occurrence_each_sentence)`:
entry `(i, j)` sums `p_i * p_j` over the sentences. -/
def cooccurrenceFull {K : ℕ} (sents : List (SentenceData K)) :
    Fin K → Fin K → ℚ :=
  fun i j => (sents.map fun s => presQ s i * presQ s j).sum

/-- `np.dot(occurrence_each_sentence.T,
(occurrence_each_sentence.T * sentiment_score).T)`: entry `(i, j)`
sums `p_i * score * p_j` over the sentences. -/
def sentimentFull {K : ℕ} (sents : List (SentenceData K)) :
    Fin K → Fin K → ℚ :=
  fun i j => (sents.map fun s => presQ s i * (s.score * presQ s j)).sum

/-- `np.tril`: keep the entries with `j ≤ i`, zero the rest. -/
def tril {K : ℕ} (M : Fin K → Fin K → ℚ) : Fin K → Fin K → ℚ :=
  fun i j => if (j : ℕ) ≤ (i : ℕ) then M i j else 0

/-- `matrix[[range(shape)], [range(shape)]] = 0`: zero the diagonal. -/
def zeroDiag {K : ℕ} (M : Fin K → Fin K → ℚ) : Fin K → Fin K → ℚ :=
  fun i j => if i = j then 0 else M i j

/-- `calculate_matrix` of `character_relations.py`: the co-occurrence
matrix `Pᵗ·P` and the sentiment matrix `Pᵗ·diag(s)·P + align_rate·C`,
both then lower-triangularised and diagonal-zeroed. -/
def calculate_matrix {K : ℕ} (sents : List (SentenceData K)) (align_rate : ℚ) :
    (Fin K → Fin K → ℚ) × (Fin K → Fin K → ℚ) :=
  let cooccurrence := cooccurrenceFull sents
  let sentiment := fun i j => sentimentFull sents i j + align_rate * cooccurrence i j
  (zeroDiag (tril cooccurrence), zeroDiag (tril sentiment))

/-- The three modes accepted by `matrix_to_edge_list`. -/
inductive Mode where
  | cooccurrence
  | sentiment
  | bare
deriving DecidableEq

/-- `list(zip(*np.where(np.triu(np.ones([shape, shape])) == 0)))`: the
strictly-lower-triangular positions `(i, j)` with `j < i`, in row-major
order. -/
def lowerTriLoc (K : ℕ) : List (Fin K × Fin K) :=
  (List.finRange K).flatMap fun i =>
    ((List.finRange K).filter fun j => decide (j < i)).map fun j => (i, j)

/-- `np.max(np.abs(matrix))`, the normalisation denominator.  numpy's
max is over a nonempty array; since all `|entry|` are nonnegative,
folding `max` from 0 agrees with it whenever `K ≥ 1`. -/
def maxAbs {K : ℕ} (M : Fin K → Fin K → ℚ) : ℚ :=
  ((List.finRange K).flatMap fun i => (List.finRange K).map fun j => |M i j|).foldr max 0

/-- One entry of `matrix / np.max(np.abs(matrix))` (numpy division, so
an all-zero matrix gives `nan` entries rather than an exception). -/
def normEntry {K : ℕ} (M : Fin K → Fin K → ℚ) (i j : Fin K) : NpVal ℚ :=
  npDivQ (M i j) (maxAbs M)

/-- The edge weight `matrix_to_edge_list` computes from a normalised
entry `m`: `np.log(2000 * m + 1) * 0.7` in co-occurrence mode,
`np.log(np.abs(1000 * m) + 1) * 0.7` in sentiment and bare modes. -/
noncomputable def weightAt (mode : Mode) (m : NpVal ℚ) : NpVal ℝ :=
  match mode with
  | Mode.cooccurrence => npMul07 (npLog (npAdd1 (npSMul 2000 m)))
  | Mode.sentiment => npMul07 (npLog (npAdd1 (npAbsQ (npSMul 1000 m))))
  | Mode.bare => npMul07 (npLog (npAdd1 (npAbsQ (npSMul 1000 m))))

/-- The edge color `matrix_to_edge_list` computes from a normalised
entry `m`: `np.log(2000 * m + 1)` in co-occurrence mode, `2000 * m`
(sign preserved) in sentiment and bare modes. -/
noncomputable def colorAt (mode : Mode) (m : NpVal ℚ) : NpVal ℝ :=
  match mode with
  | Mode.cooccurrence => npLog (npAdd1 (npSMul 2000 m))
  | Mode.sentiment => toRealNp (npSMul 2000 m)
  | Mode.bare => toRealNp (npSMul 2000 m)

/-- An edge of the network graph:
`(name_list[i[0]], name_list[i[1]], {weight, color})`. -/
structure Edge where
  name_a : String
  name_b : String
  weight : NpVal ℝ
  color : NpVal ℝ

/-- `matrix_to_edge_list` of `character_relations.py`: for every
strictly-lower-triangular position, when
`mode != 'bare' or weight[i] > 0.0001` holds, emit the edge joining
the two names with the transformed weight and color.  The comparison
of the real-valued weight with the threshold is classically decided. -/
noncomputable def matrix_to_edge_list {K : ℕ} (M : Fin K → Fin K → ℚ)
    (mode : Mode) (name_list : Fin K → String) : List Edge :=
  ((lowerTriLoc K).filter fun p =>
      @decide (mode ≠ Mode.bare ∨
        NpVal.gtR (weightAt mode (normEntry M p.1 p.2)) (1 / 10000))
        (Classical.propDecidable _)).map
    fun p =>
      { name_a := name_list p.1
        name_b := name_list p.2
        weight := weightAt mode (normEntry M p.1 p.2)
        color := colorAt mode (normEntry M p.1 p.2) }

lemma mem_lowerTriLoc {K : ℕ} (p : Fin K × Fin K) :
    p ∈ lowerTriLoc K ↔ p.2 < p.1 := by
  obtain ⟨i, j⟩ := p
  simp only [lowerTriLoc, List.mem_flatMap, List.mem_map, List.mem_filter,
    List.mem_finRange, true_and, decide_eq_true_eq, Prod.mk.injEq]
  constructor
  · rintro ⟨a, b, hb, rfl, rfl⟩
    exact hb
  · intro h
    exact ⟨i, j, h, rfl, rfl⟩

lemma nodup_lowerTriLoc (K : ℕ) : (lowerTriLoc K).Nodup := by
  unfold lowerTriLoc
  rw [List.nodup_flatMap]
  constructor
  · intro i _
    apply List.Nodup.map
    · intro a b hab
      exact ((Prod.mk.injEq _ _ _ _).mp hab).2
    · exact (List.nodup_finRange K).filter _
  · apply List.Pairwise.imp_of_mem ?_ (List.nodup_finRange K)
    intro a b _ _ hab x hxa hxb
    obtain ⟨ja, _, rfl⟩ := List.mem_map.mp hxa
    obtain ⟨jb, _, hx⟩ := List.mem_map.mp hxb
    exact hab ((Prod.mk.injEq _ _ _ _).mp hx.symm).1

lemma foldr_max_zero (l : List ℚ) (h : ∀ x ∈ l, x = 0) : l.foldr max 0 = 0 := by
  induction l with
  | nil => rfl
  | cons x xs ih =>
    rw [List.foldr_cons, ih fun y hy => h y (List.mem_cons_of_mem _ hy),
      h x (List.mem_cons_self _ _)]
    simp

lemma maxAbs_zeroM {K : ℕ} : maxAbs (fun _ _ => (0 : ℚ) : Fin K → Fin K → ℚ) = 0 := by
  apply foldr_max_zero
  intro x hx
  simp only [List.mem_flatMap, List.mem_map] at hx
  obtain ⟨i, _, j, _, rfl⟩ := hx
  simp

lemma normEntry_fin {K : ℕ} (M : Fin K → Fin K → ℚ) (hmax : maxAbs M ≠ 0) (i j : Fin K) :
    normEntry M i j = NpVal.fin (M i j / maxAbs M) := by
  unfold normEntry npDivQ
  rw [if_neg hmax]

lemma normEntry_zeroM {K : ℕ} (i j : Fin K) :
    normEntry (fun _ _ => (0 : ℚ)) i j = NpVal.nan := by
  unfold normEntry npDivQ
  rw [maxAbs_zeroM]
  simp

lemma weightAt_cooc_fin (m : ℚ) (h : 0 < 2000 * m + 1) :
    weightAt Mode.cooccurrence (NpVal.fin m)
      = NpVal.fin (Real.log ((2000 * m + 1 : ℚ)) * 0.7) := by
  simp only [weightAt, npSMul, npAdd1, npLog, npMul07, if_pos h]

lemma colorAt_cooc_fin (m : ℚ) (h : 0 < 2000 * m + 1) :
    colorAt Mode.cooccurrence (NpVal.fin m)
      = NpVal.fin (Real.log ((2000 * m + 1 : ℚ))) := by
  simp only [colorAt, npSMul, npAdd1, npLog, if_pos h]

lemma weightAt_sb_fin (mode : Mode) (hmode : mode ≠ Mode.cooccurrence) (m : ℚ) :
    weightAt mode (NpVal.fin m)
      = NpVal.fin (Real.log ((|1000 * m| + 1 : ℚ)) * 0.7) := by
  have h : (0 : ℚ) < |1000 * m| + 1 := by positivity
  cases mode with
  | cooccurrence => exact absurd rfl hmode
  | sentiment => simp only [weightAt, npSMul, npAbsQ, npAdd1, npLog, npMul07, if_pos h]
  | bare => simp only [weightAt, npSMul, npAbsQ, npAdd1, npLog, npMul07, if_pos h]

lemma colorAt_sb_fin (mode : Mode) (hmode : mode ≠ Mode.cooccurrence) (m : ℚ) :
    colorAt mode (NpVal.fin m) = NpVal.fin (((2000 * m : ℚ) : ℝ)) := by
  cases mode with
  | cooccurrence => exact absurd rfl hmode
  | sentiment => rfl
  | bare => rfl

lemma weightAt_nan (mode : Mode) : weightAt mode NpVal.nan = NpVal.nan := by
  cases mode <;> rfl

lemma colorAt_nan (mode : Mode) : colorAt mode NpVal.nan = NpVal.nan := by
  cases mode <;> rfl

lemma edge_list_nonbare {K : ℕ} (M : Fin K → Fin K → ℚ) (mode : Mode)
    (names : Fin K → String) (h : mode ≠ Mode.bare) :
    matrix_to_edge_list M mode names = (lowerTriLoc K).map fun p =>
      { name_a := names p.1, name_b := names p.2,
        weight := weightAt mode (normEntry M p.1 p.2),
        color := colorAt mode (normEntry M p.1 p.2) } := by
  unfold matrix_to_edge_list
  congr 1
  rw [List.filter_eq_self]
  intro p _
  simp only [decide_eq_true_eq]
  exact Or.inl h

lemma edge_list_zero_bare {K : ℕ} (names : Fin K → String) :
    matrix_to_edge_list (fun _ _ => (0 : ℚ)) Mode.bare names = [] := by
  unfold matrix_to_edge_list
  have hfil : List.filter
      (fun p : Fin K × Fin K => @decide
        (Mode.bare ≠ Mode.bare ∨
          NpVal.gtR (weightAt Mode.bare (normEntry (fun _ _ => (0 : ℚ)) p.1 p.2)) (1 / 10000))
        (Classical.propDecidable _)) (lowerTriLoc K) = [] := by
    rw [List.filter_eq_nil_iff]
    intro p hp
    simp only [decide_eq_true_eq]
    rintro (h' | h')
    · exact h' rfl
    · rw [normEntry_zeroM, weightAt_nan] at h'
      exact h'
  rw [hfil, List.map_nil]

lemma mem_dedupKeepFirst (x : String) (l : List String) :
    x ∈ dedupKeepFirst l ↔ x ∈ l := by
  induction l using dedupKeepFirst.induct with
  | case1 => simp [dedupKeepFirst]
  | case2 y ys ih =>
    rw [dedupKeepFirst]
    by_cases hxy : x = y
    · subst hxy; simp
    · simp only [List.mem_cons, ih, List.mem_filter, decide_eq_true_eq]
      constructor
      · rintro (rfl | ⟨hm, _⟩)
        · exact Or.inl rfl
        · exact Or.inr hm
      · rintro (rfl | hm)
        · exact Or.inl rfl
        · exact Or.inr ⟨hm, hxy⟩

lemma nodup_dedupKeepFirst (l : List String) : (dedupKeepFirst l).Nodup := by
  induction l using dedupKeepFirst.induct with
  | case1 => simp [dedupKeepFirst]
  | case2 y ys ih =>
    rw [dedupKeepFirst]
    refine List.nodup_cons.mpr ⟨?_, ih⟩
    rw [mem_dedupKeepFirst]
    simp

lemma flatten_filter_ne_nil (ls : List (List String)) :
    (ls.filter fun l => decide (l ≠ [])).flatten = ls.flatten := by
  induction ls with
  | nil => rfl
  | cons l ls ih =>
    by_cases hl : l = []
    · subst hl; simpa using ih
    · rw [List.filter_cons, if_pos (by simpa using hl), List.flatten_cons,
        List.flatten_cons, ih]

/-- Claim C6: for a sentence list with at least one nonzero sentiment
score, `calculate_align_rate` returns
`sum(scores) / count(nonzero scores) * -2`. -/
theorem claim_C6 (scores : List ℚ)
    (h : (scores.filter fun x => decide (x ≠ 0)).length ≠ 0) :
    calculate_align_rate scores =
      NpVal.fin (scores.sum / ((scores.filter fun x => decide (x ≠ 0)).length : ℚ) * (-2)) := by
  unfold calculate_align_rate npDivQ
  rw [if_neg (by exact_mod_cast h)]
  show NpVal.fin _ = NpVal.fin _
  rw [mul_comm]

theorem claim_C6_witness :
    ((([2, -1, 0, 3] : List ℚ).filter fun x => decide (x ≠ 0)).length ≠ 0) ∧
      calculate_align_rate [2, -1, 0, 3] = NpVal.fin (-8 / 3) := by
  have hfil : (([2, -1, 0, 3] : List ℚ).filter fun x => decide (x ≠ 0)) = [2, -1, 3] := by
    norm_num [List.filter]
  have hlen : (([2, -1, 0, 3] : List ℚ).filter fun x => decide (x ≠ 0)).length ≠ 0 := by
    rw [hfil]; norm_num
  refine ⟨hlen, ?_⟩
  rw [claim_C6 [2, -1, 0, 3] hlen, hfil]
  norm_num [List.sum_cons, List.sum_nil]

/-- Claim C7 counterexample: on a list with no nonzero score the code
does not raise; numpy division by the zero count returns `nan` (the
score sum is then necessarily zero as well), so `calculate_align_rate`
returns `nan` rather than failing with InvalidInput. -/
theorem claim_C7_counterexample : calculate_align_rate [0] = NpVal.nan := by
  norm_num [calculate_align_rate, npDivQ, npSMul, List.filter]

/-- Claim C7 (amended): for every sentence list in which no sentence
has a nonzero sentiment score, `calculate_align_rate` does not fail:
the division of the (necessarily zero) score sum by the zero count of
nonzero scores is numpy's `0/0 = nan`, and the result is `nan`. -/
theorem claim_C7_amended (scores : List ℚ) (h : ∀ x ∈ scores, x = 0) :
    calculate_align_rate scores = NpVal.nan := by
  have hsum : scores.sum = 0 := List.sum_eq_zero h
  have hfilter : scores.filter (fun x => decide (x ≠ 0)) = [] := by
    rw [List.filter_eq_nil_iff]
    intro a ha
    simpa using h a ha
  unfold calculate_align_rate
  rw [hsum, hfilter]
  rfl

theorem claim_C7_witness :
    (∀ x ∈ ([0, 0] : List ℚ), x = 0) ∧ calculate_align_rate [0, 0] = NpVal.nan :=
  ⟨by simp, claim_C7_amended [0, 0] (by simp)⟩

lemma sum_presQ_mul {K : ℕ} (sents : List (SentenceData K)) (i j : Fin K) :
    (sents.map fun s => presQ s i * presQ s j).sum
      = ((sents.countP fun s => s.presence i && s.presence j) : ℚ) := by
  induction sents with
  | nil => simp
  | cons s t ih =>
    rw [List.map_cons, List.sum_cons, ih, List.countP_cons]
    by_cases hi : s.presence i <;> by_cases hj : s.presence j <;>
      simp [presQ, hi, hj, add_comm]

lemma sum_presQ_score {K : ℕ} (sents : List (SentenceData K)) (i j : Fin K) :
    (sents.map fun s => presQ s i * (s.score * presQ s j)).sum
      = ((sents.filter fun s => s.presence i && s.presence j).map SentenceData.score).sum := by
  induction sents with
  | nil => simp
  | cons s t ih =>
    rw [List.map_cons, List.sum_cons, ih, List.filter_cons]
    by_cases hi : s.presence i <;> by_cases hj : s.presence j <;>
      simp [presQ, hi, hj]

/-- Claim C1: for every strictly-lower-triangular cell `(i, j)`, the
co-occurrence matrix holds the number of sentences whose presence
vector contains both name `i` and name `j`, and the sentiment matrix
holds the sum of those sentences' sentiment scores plus `align_rate`
times the co-occurrence count. -/
theorem claim_C1 {K : ℕ} (sents : List (SentenceData K)) (align_rate : ℚ)
    (i j : Fin K) (hij : (j : ℕ) < (i : ℕ)) :
    (calculate_matrix sents align_rate).1 i j
        = ((sents.countP fun s => s.presence i && s.presence j) : ℚ) ∧
      (calculate_matrix sents align_rate).2 i j
        = ((sents.filter fun s => s.presence i && s.presence j).map SentenceData.score).sum
            + align_rate * ((sents.countP fun s => s.presence i && s.presence j) : ℚ) := by
  have hne : i ≠ j := by
    intro h
    rw [h] at hij
    exact lt_irrefl _ hij
  have hle : (j : ℕ) ≤ (i : ℕ) := le_of_lt hij
  simp only [calculate_matrix, zeroDiag, tril, cooccurrenceFull, sentimentFull,
    if_neg hne, if_pos hle]
  exact ⟨sum_presQ_mul sents i j,
    by rw [sum_presQ_score sents i j, sum_presQ_mul sents i j]⟩

/-- A small concrete corpus over a two-name vocabulary, used by the
witnesses: one sentence mentioning both names with score 3, one
mentioning only name 0 with score -1. -/
def sentsW : List (SentenceData 2) :=
  [⟨fun _ => true, 3⟩, ⟨fun i => decide (i = 0), -1⟩]

theorem claim_C1_witness :
    (((0 : Fin 2) : ℕ) < ((1 : Fin 2) : ℕ)) ∧
      ((calculate_matrix sentsW 5).1 1 0
          = ((sentsW.countP fun s => s.presence 1 && s.presence 0) : ℚ) ∧
        (calculate_matrix sentsW 5).2 1 0
          = ((sentsW.filter fun s => s.presence 1 && s.presence 0).map SentenceData.score).sum
              + 5 * ((sentsW.countP fun s => s.presence 1 && s.presence 0) : ℚ)) :=
  ⟨by decide, claim_C1 sentsW 5 1 0 (by decide)⟩

/-- Claim C2: both matrices returned by `calculate_matrix` are `K × K`
(by the type of the embedding), and every cell on or above the
diagonal — the diagonal and the whole strict upper triangle — is zero,
so each unordered name pair is represented by exactly the one cell
below the diagonal. -/
theorem claim_C2 {K : ℕ} (sents : List (SentenceData K)) (align_rate : ℚ)
    (i j : Fin K) (hle : (i : ℕ) ≤ (j : ℕ)) :
    (calculate_matrix sents align_rate).1 i j = 0 ∧
      (calculate_matrix sents align_rate).2 i j = 0 := by
  by_cases heq : i = j
  · subst heq
    simp [calculate_matrix, zeroDiag]
  · have hij : ¬ ((j : ℕ) ≤ (i : ℕ)) := by
      have : (i : ℕ) ≠ (j : ℕ) := fun h => heq (Fin.ext h)
      omega
    simp [calculate_matrix, zeroDiag, tril, heq, hij]

theorem claim_C2_witness :
    (((0 : Fin 2) : ℕ) ≤ ((1 : Fin 2) : ℕ)) ∧
      ((calculate_matrix sentsW 5).1 0 1 = 0 ∧ (calculate_matrix sentsW 5).2 0 1 = 0) :=
  ⟨by decide, claim_C2 sentsW 5 0 1 (by decide)⟩

lemma length_insertAsc (x : String × ℕ) (l : List (String × ℕ)) :
    (insertAsc x l).length = l.length + 1 := by
  induction l with
  | nil => rfl
  | cons y ys ih =>
    rw [insertAsc]
    by_cases h : x.2 < y.2
    · simp [h]
    · simp [h, ih]

lemma mem_insertAsc (a x : String × ℕ) (l : List (String × ℕ)) :
    a ∈ insertAsc x l ↔ a = x ∨ a ∈ l := by
  induction l with
  | nil => simp [insertAsc]
  | cons y ys ih =>
    rw [insertAsc]
    by_cases h : x.2 < y.2
    · simp [h]
    · simp only [h, if_false, List.mem_cons, ih]
      tauto

lemma pairwise_insertAsc (x : String × ℕ) (l : List (String × ℕ))
    (hl : l.Pairwise fun a b => a.2 ≤ b.2) :
    (insertAsc x l).Pairwise fun a b => a.2 ≤ b.2 := by
  induction l with
  | nil => simp [insertAsc]
  | cons y ys ih =>
    rw [insertAsc]
    rcases List.pairwise_cons.mp hl with ⟨hy, hys⟩
    by_cases h : x.2 < y.2
    · rw [if_pos h]
      refine List.pairwise_cons.mpr ⟨?_, hl⟩
      intro b hb
      rcases List.mem_cons.mp hb with rfl | hb
      · exact le_of_lt h
      · exact le_trans (le_of_lt h) (hy b hb)
    · rw [if_neg h]
      refine List.pairwise_cons.mpr ⟨?_, ih hys⟩
      intro b hb
      rcases (mem_insertAsc b x ys).mp hb with rfl | hb
      · exact le_of_not_lt h
      · exact hy b hb

lemma sortAsc_loop_length (l : List (String × ℕ)) :
    ∀ acc, (l.foldl (fun a x => insertAsc x a) acc).length = acc.length + l.length := by
  induction l with
  | nil => intro acc; simp
  | cons x xs ih =>
    intro acc
    rw [List.foldl_cons, ih, length_insertAsc, List.length_cons]
    omega

lemma sortAsc_length (l : List (String × ℕ)) : (sortAsc l).length = l.length := by
  unfold sortAsc
  rw [sortAsc_loop_length]
  simp

lemma sortAsc_loop_pairwise (l : List (String × ℕ)) :
    ∀ acc, (acc.Pairwise fun a b => a.2 ≤ b.2) →
      ((l.foldl (fun a x => insertAsc x a) acc).Pairwise fun a b => a.2 ≤ b.2) := by
  induction l with
  | nil => intro acc h; simpa using h
  | cons x xs ih =>
    intro acc h
    exact ih _ (pairwise_insertAsc x acc h)

lemma sortAsc_pairwise (l : List (String × ℕ)) :
    (sortAsc l).Pairwise fun a b => a.2 ≤ b.2 :=
  sortAsc_loop_pairwise l [] (by simp)

/-- Claim C8 counterexample: on the spec's own example
`{"alice": 5, "bob": 2, "carl": 2}` with `top_num = 2` the code
returns `["alice", "carl"]`, not `["alice", "bob"]`: pandas
`sort_values(ascending=False)` computes an ascending argsort (stable
on an array this small) and reverses it, so the tie between bob and
carl is broken in *reverse* first-seen order. -/
theorem claim_C8_counterexample :
    (top_names [("alice", 5), ("bob", 2), ("carl", 2)] 2).2 = ["alice", "carl"] ∧
      (top_names [("alice", 5), ("bob", 2), ("carl", 2)] 2).2 ≠ ["alice", "bob"] := by
  refine ⟨rfl, ?_⟩
  intro h
  rw [show (top_names [("alice", 5), ("bob", 2), ("carl", 2)] 2).2
      = ["alice", "carl"] from rfl] at h
  simp at h

/-- Claim C8 (amended): `top_names` returns exactly
`min(top_num, |candidate set|)` names sorted by descending corpus
frequency, paired with their frequencies; among equal frequencies the
order is the *reverse* of the order in which the names appear in the
input (pandas reverses a stable ascending sort), so the example yields
`["alice", "carl"]` with frequencies `[5, 2]`. -/
theorem claim_C8_amended :
    (∀ (name_freq : List (String × ℕ)) (top_num : ℕ),
        (top_names name_freq top_num).1.length = min top_num name_freq.length ∧
        (top_names name_freq top_num).2.length = min top_num name_freq.length ∧
        ((top_names name_freq top_num).1.Pairwise fun a b => b ≤ a)) ∧
      top_names [("alice", 5), ("bob", 2), ("carl", 2)] 2 = ([5, 2], ["alice", "carl"]) := by
  constructor
  · intro nf tn
    refine ⟨?_, ?_, ?_⟩
    · simp [top_names, List.length_take, sortAsc_length]
    · simp [top_names, List.length_take, sortAsc_length]
    · show ((((sortAsc nf).reverse.take tn).map Prod.snd).Pairwise fun a b => b ≤ a)
      apply List.pairwise_map.mpr
      apply List.Pairwise.sublist (List.take_sublist _ _)
      rw [List.pairwise_reverse]
      exact sortAsc_pairwise nf
  · rfl

/-- Claim C9 counterexample: on the empty sentence list the aggregator
does not fail — there is no division in `iterative_NER` at all (the
threshold check is the multiplication `count ≥ threshold_rate * 0`),
and it returns the empty list. -/
theorem claim_C9_counterexample : iterative_NER [] (5 / 10000) = [] := by
  simp [iterative_NER, dedupKeepFirst]

/-- Claim C9 (amended): `iterative_NER` never fails; on the empty
sentence list it returns the empty list, and in general it returns a
deduplicated (`Nodup`) list containing exactly the extracted names
whose occurrence count across all sentences is at least
`threshold_rate` times the sentence count. -/
theorem claim_C9_amended (name_lists : List (List String)) (threshold_rate : ℚ)
    (x : String) :
    iterative_NER [] threshold_rate = [] ∧
      (iterative_NER name_lists threshold_rate).Nodup ∧
      (x ∈ iterative_NER name_lists threshold_rate ↔
        x ∈ name_lists.flatten ∧
          threshold_rate * (name_lists.length : ℚ) ≤ (name_lists.flatten.count x : ℚ)) := by
  refine ⟨by simp [iterative_NER, dedupKeepFirst], ?_, ?_⟩
  · exact List.Nodup.filter _ (nodup_dedupKeepFirst _)
  · unfold iterative_NER
    rw [List.mem_filter, mem_dedupKeepFirst, flatten_filter_ne_nil, decide_eq_true_eq]

theorem claim_C9_witness :
    iterative_NER [] (1 / 2) = [] ∧
      (iterative_NER [["alice"], [], ["alice", "bob"]] (1 / 2)).Nodup ∧
      ("bob" ∈ iterative_NER [["alice"], [], ["alice", "bob"]] (1 / 2) ↔
        "bob" ∈ ([["alice"], [], ["alice", "bob"]] : List (List String)).flatten ∧
          (1 / 2 : ℚ) * (([["alice"], [], ["alice", "bob"]] : List (List String)).length : ℚ) ≤
            ((([["alice"], [], ["alice", "bob"]] : List (List String)).flatten.count "bob" : ℕ) : ℚ)) :=
  claim_C9_amended [["alice"], [], ["alice", "bob"]] (1 / 2) "bob"

/-- Claim C3: for every matrix whose maximum absolute value is
nonzero, each edge the projector emits gets its weight and color from
the normalised value `m` of its cell: in co-occurrence mode (whenever
the log argument `2000 m + 1` is positive, which the claim's formula
presupposes) weight `= ln(2000 m + 1) * 0.7` and color
`= ln(2000 m + 1)`; in sentiment and bare modes weight
`= ln(|1000 m| + 1) * 0.7` and color `= 2000 m` with sign
preserved. -/
theorem claim_C3 {K : ℕ} (M : Fin K → Fin K → ℚ) (mode : Mode) (names : Fin K → String)
    (e : Edge) (hmax : maxAbs M ≠ 0)
    (hpos : mode = Mode.cooccurrence → ∀ i j : Fin K, 0 < 2000 * (M i j / maxAbs M) + 1)
    (he : e ∈ matrix_to_edge_list M mode names) :
    ∃ i j : Fin K, (j : ℕ) < (i : ℕ) ∧ e.name_a = names i ∧ e.name_b = names j ∧
      (mode = Mode.cooccurrence →
        e.weight = NpVal.fin (Real.log ((2000 * (M i j / maxAbs M) + 1 : ℚ)) * 0.7) ∧
        e.color = NpVal.fin (Real.log ((2000 * (M i j / maxAbs M) + 1 : ℚ)))) ∧
      (mode ≠ Mode.cooccurrence →
        e.weight = NpVal.fin (Real.log ((|1000 * (M i j / maxAbs M)| + 1 : ℚ)) * 0.7) ∧
        e.color = NpVal.fin (((2000 * (M i j / maxAbs M) : ℚ) : ℝ))) := by
  obtain ⟨p, hp, rfl⟩ := List.mem_map.mp he
  have hmem : p ∈ lowerTriLoc K := (List.mem_filter.mp hp).1
  have hlt : p.2 < p.1 := (mem_lowerTriLoc p).mp hmem
  refine ⟨p.1, p.2, hlt, rfl, rfl, ?_, ?_⟩
  · rintro rfl
    constructor
    · show weightAt Mode.cooccurrence (normEntry M p.1 p.2) = _
      rw [normEntry_fin M hmax, weightAt_cooc_fin _ (hpos rfl p.1 p.2)]
    · show colorAt Mode.cooccurrence (normEntry M p.1 p.2) = _
      rw [normEntry_fin M hmax, colorAt_cooc_fin _ (hpos rfl p.1 p.2)]
  · intro hmode
    constructor
    · show weightAt mode (normEntry M p.1 p.2) = _
      rw [normEntry_fin M hmax, weightAt_sb_fin mode hmode]
    · show colorAt mode (normEntry M p.1 p.2) = _
      rw [normEntry_fin M hmax, colorAt_sb_fin mode hmode]

/-- A 2×2 matrix whose only nonzero entry is the lower-triangular cell
`(1, 0)`. -/
def Mc3 : Fin 2 → Fin 2 → ℚ := fun i j => if i = 1 ∧ j = 0 then 1 else 0

/-- A two-name vocabulary. -/
def namesW2 : Fin 2 → String := fun i => if i = 0 then "alice" else "bob"

/-- The edge the projector builds from cell `(1, 0)` of `Mc3` in
sentiment mode. -/
noncomputable def eC3 : Edge :=
  { name_a := namesW2 1, name_b := namesW2 0,
    weight := weightAt Mode.sentiment (normEntry Mc3 1 0),
    color := colorAt Mode.sentiment (normEntry Mc3 1 0) }

theorem claim_C3_witness :
    maxAbs Mc3 ≠ 0 ∧ eC3 ∈ matrix_to_edge_list Mc3 Mode.sentiment namesW2 ∧
      (∃ i j : Fin 2, (j : ℕ) < (i : ℕ) ∧ eC3.name_a = namesW2 i ∧ eC3.name_b = namesW2 j ∧
        (Mode.sentiment = Mode.cooccurrence →
          eC3.weight = NpVal.fin (Real.log ((2000 * (Mc3 i j / maxAbs Mc3) + 1 : ℚ)) * 0.7) ∧
          eC3.color = NpVal.fin (Real.log ((2000 * (Mc3 i j / maxAbs Mc3) + 1 : ℚ)))) ∧
        (Mode.sentiment ≠ Mode.cooccurrence →
          eC3.weight = NpVal.fin (Real.log ((|1000 * (Mc3 i j / maxAbs Mc3)| + 1 : ℚ)) * 0.7) ∧
          eC3.color = NpVal.fin (((2000 * (Mc3 i j / maxAbs Mc3) : ℚ) : ℝ)))) := by
  have hmax : maxAbs Mc3 ≠ 0 := by decide
  have hmem : eC3 ∈ matrix_to_edge_list Mc3 Mode.sentiment namesW2 := by
    unfold matrix_to_edge_list
    refine List.mem_map.mpr ⟨((1 : Fin 2), (0 : Fin 2)), List.mem_filter.mpr ⟨?_, ?_⟩, rfl⟩
    · rw [mem_lowerTriLoc]
      decide
    · simp only [decide_eq_true_eq]
      exact Or.inl (by decide)
  exact ⟨hmax, hmem,
    claim_C3 Mc3 Mode.sentiment namesW2 eC3 hmax (fun h => absurd h (by decide)) hmem⟩

/-- A 3×3 matrix whose only nonzero entry is the lower-triangular cell
`(1, 0)`; the cells `(2, 0)` and `(2, 1)` are zero. -/
def Mc4 : Fin 3 → Fin 3 → ℚ := fun i j => if i = 1 ∧ j = 0 then 1 else 0

/-- A three-name vocabulary. -/
def namesW3 : Fin 3 → String :=
  fun i => if i = 0 then "alice" else if i = 1 then "bob" else "carl"

/-- Claim C4 counterexample: in co-occurrence mode on a 3×3 matrix
with a single nonzero lower-triangular cell, the projector emits 3
edges — one for *every* strict-lower pair, including the two pairs
whose matrix entry is zero — because the loop condition
`mode != 'bare' or weight > 0.0001` is vacuously true outside bare
mode.  The claim predicts exactly one edge. -/
theorem claim_C4_counterexample :
    (matrix_to_edge_list Mc4 Mode.cooccurrence namesW3).length = 3 ∧
      Mc4 2 0 = 0 ∧ Mc4 2 1 = 0 := by
  refine ⟨?_, by simp [Mc4], by simp [Mc4]⟩
  rw [edge_list_nonbare _ _ _ (by decide), List.length_map]
  decide

/-- Claim C4 (amended): in co-occurrence and sentiment modes the
projector emits an edge for every strictly-lower-triangular pair
regardless of the entry's value (zero entries included); only in bare
mode is the list filtered, and there it contains an edge exactly for
the pairs whose transformed weight exceeds 0.0001; no other pairs
appear in any mode. -/
theorem claim_C4_amended {K : ℕ} (M : Fin K → Fin K → ℚ) (names : Fin K → String) :
    (matrix_to_edge_list M Mode.cooccurrence names = (lowerTriLoc K).map fun p =>
        { name_a := names p.1, name_b := names p.2,
          weight := weightAt Mode.cooccurrence (normEntry M p.1 p.2),
          color := colorAt Mode.cooccurrence (normEntry M p.1 p.2) }) ∧
      (matrix_to_edge_list M Mode.sentiment names = (lowerTriLoc K).map fun p =>
        { name_a := names p.1, name_b := names p.2,
          weight := weightAt Mode.sentiment (normEntry M p.1 p.2),
          color := colorAt Mode.sentiment (normEntry M p.1 p.2) }) ∧
      (∀ e : Edge, e ∈ matrix_to_edge_list M Mode.bare names ↔
        ∃ p : Fin K × Fin K, p ∈ lowerTriLoc K ∧
          NpVal.gtR (weightAt Mode.bare (normEntry M p.1 p.2)) (1 / 10000) ∧
          e = { name_a := names p.1, name_b := names p.2,
                weight := weightAt Mode.bare (normEntry M p.1 p.2),
                color := colorAt Mode.bare (normEntry M p.1 p.2) }) := by
  refine ⟨edge_list_nonbare M _ names (by decide),
    edge_list_nonbare M _ names (by decide), ?_⟩
  intro e
  unfold matrix_to_edge_list
  rw [List.mem_map]
  constructor
  · rintro ⟨p, hp, rfl⟩
    have h := List.mem_filter.mp hp
    have h2 := h.2
    simp only [decide_eq_true_eq] at h2
    refine ⟨p, h.1, ?_, rfl⟩
    rcases h2 with h' | h'
    · exact absurd rfl h'
    · exact h'
  · rintro ⟨p, hmem, hgt, rfl⟩
    refine ⟨p, List.mem_filter.mpr ⟨hmem, ?_⟩, rfl⟩
    simp only [decide_eq_true_eq]
    exact Or.inr hgt

/-- Claim C5 counterexample: the projector does not fail on the
all-zero 2×2 matrix.  In sentiment mode it returns a NaN-filled edge
list (normalisation divides 0 by 0), and in bare mode it returns the
empty list (NaN fails the weight threshold), contradicting the
claimed InvalidInput error. -/
theorem claim_C5_counterexample :
    matrix_to_edge_list (fun _ _ => (0 : ℚ)) Mode.sentiment namesW2
        = [{ name_a := "bob", name_b := "alice", weight := NpVal.nan, color := NpVal.nan }] ∧
      matrix_to_edge_list (fun _ _ => (0 : ℚ)) Mode.bare namesW2 = [] := by
  constructor
  · rw [edge_list_nonbare _ _ _ (by decide)]
    rw [show lowerTriLoc 2 = [((1 : Fin 2), (0 : Fin 2))] by decide]
    simp only [List.map_cons, List.map_nil, normEntry_zeroM, weightAt_nan, colorAt_nan]
    rfl
  · exact edge_list_zero_bare namesW2

/-- Claim C5 (amended): for every all-zero input matrix the projector
does not fail: `np.max(np.abs(matrix))` is 0 and numpy's `0/0`
normalisation produces NaN in every cell, so in co-occurrence and
sentiment modes the result is an edge list with one NaN-weight,
NaN-color edge per strict-lower pair, and in bare mode (where
`NaN > 0.0001` is false) the empty list. -/
theorem claim_C5_amended {K : ℕ} (names : Fin K → String) :
    (matrix_to_edge_list (fun _ _ => (0 : ℚ)) Mode.cooccurrence names
        = (lowerTriLoc K).map fun p =>
            { name_a := names p.1, name_b := names p.2,
              weight := NpVal.nan, color := NpVal.nan }) ∧
      (matrix_to_edge_list (fun _ _ => (0 : ℚ)) Mode.sentiment names
        = (lowerTriLoc K).map fun p =>
            { name_a := names p.1, name_b := names p.2,
              weight := NpVal.nan, color := NpVal.nan }) ∧
      matrix_to_edge_list (fun _ _ => (0 : ℚ)) Mode.bare names = [] := by
  refine ⟨?_, ?_, edge_list_zero_bare names⟩
  · rw [edge_list_nonbare _ _ _ (by decide)]
    apply List.map_congr_left
    intro p _
    rw [normEntry_zeroM, weightAt_nan, colorAt_nan]
  · rw [edge_list_nonbare _ _ _ (by decide)]
    apply List.map_congr_left
    intro p _
    rw [normEntry_zeroM, weightAt_nan, colorAt_nan]

/-- Claim C10: assuming the vocabulary has pairwise-distinct names (a
vocabulary is deduplicated), every edge the projector emits in any
mode joins two distinct names whose vocabulary indices satisfy
`index(name_a) > index(name_b)`; hence there is never a self-loop and
each unordered name pair occurs at most once in the list. -/
theorem claim_C10 {K : ℕ} (M : Fin K → Fin K → ℚ) (mode : Mode) (names : Fin K → String)
    (hinj : Function.Injective names) :
    (∀ e ∈ matrix_to_edge_list M mode names,
        ∃ i j : Fin K, (j : ℕ) < (i : ℕ) ∧ e.name_a = names i ∧ e.name_b = names j ∧
          e.name_a ≠ e.name_b) ∧
      (matrix_to_edge_list M mode names).Pairwise fun e1 e2 =>
        ¬ (e1.name_a = e2.name_a ∧ e1.name_b = e2.name_b) ∧
        ¬ (e1.name_a = e2.name_b ∧ e1.name_b = e2.name_a) := by
  constructor
  · intro e he
    obtain ⟨p, hp, rfl⟩ := List.mem_map.mp he
    have hlt : p.2 < p.1 := (mem_lowerTriLoc p).mp (List.mem_filter.mp hp).1
    refine ⟨p.1, p.2, hlt, rfl, rfl, ?_⟩
    intro hab
    exact absurd (hinj hab) (ne_of_gt hlt)
  · unfold matrix_to_edge_list
    apply List.pairwise_map.mpr
    have hnodup := (nodup_lowerTriLoc K).filter
      (fun p : Fin K × Fin K => @decide
        (mode ≠ Mode.bare ∨
          NpVal.gtR (weightAt mode (normEntry M p.1 p.2)) (1 / 10000))
        (Classical.propDecidable _))
    apply List.Pairwise.imp_of_mem ?_ hnodup
    intro p q hpmem hqmem hpq
    have hp2 : p.2 < p.1 := (mem_lowerTriLoc p).mp (List.mem_filter.mp hpmem).1
    have hq2 : q.2 < q.1 := (mem_lowerTriLoc q).mp (List.mem_filter.mp hqmem).1
    constructor
    · rintro ⟨h1, h2⟩
      exact hpq (Prod.ext (hinj h1) (hinj h2))
    · rintro ⟨h1, h2⟩
      have e1 : p.1 = q.2 := hinj h1
      have e2 : p.2 = q.1 := hinj h2
      rw [e1, e2] at hp2
      exact absurd hq2 (not_lt_of_gt hp2)

theorem claim_C10_witness :
    Function.Injective namesW2 ∧
      ((∀ e ∈ matrix_to_edge_list Mc3 Mode.cooccurrence namesW2,
          ∃ i j : Fin 2, (j : ℕ) < (i : ℕ) ∧ e.name_a = namesW2 i ∧ e.name_b = namesW2 j ∧
            e.name_a ≠ e.name_b) ∧
        (matrix_to_edge_list Mc3 Mode.cooccurrence namesW2).Pairwise fun e1 e2 =>
          ¬ (e1.name_a = e2.name_a ∧ e1.name_b = e2.name_b) ∧
          ¬ (e1.name_a = e2.name_b ∧ e1.name_b = e2.name_a)) := by
  have hinj : Function.Injective namesW2 := by
    intro a b h
    fin_cases a <;> fin_cases b <;> simp_all [namesW2]
  exact ⟨hinj, claim_C10 Mc3 Mode.cooccurrence namesW2 hinj⟩
